import Mathlib

/-!
Formal model of the MNIST digit-classification web app.

The main variant (guarded, with save-once and dirty-tracking state) lives in
src/website/mnist-web/src/App.tsx and is embedded at top level.  The second
source variant (src/unnamed/part_000, without the save guards) duplicates the
core pipeline verbatim; its copies of `preprocessCanvas` and `softmax` are
embedded in namespace `Variant0`.

Numeric model: the JavaScript number arithmetic of the ranking pipeline
(`Math.exp`, division) is modelled over the real numbers; the preprocessing
arithmetic (integer byte channels, division by the constants 3 and 255) is
modelled over the rationals.  The browser canvas resampling (`drawImage` onto
the 28 by 28 temporary canvas) is a platform black box, so `preprocessCanvas`
is parameterised by the resampled 28 by 28 destination image that
`getImageData` returns.
-/

/-- One RGBA pixel of the 28 by 28 destination image as returned by
`getImageData` (a `Uint8ClampedArray` quadruplet, byte-valued channels). -/
structure RGBA where
  r : ℕ
  g : ℕ
  b : ℕ
  a : ℕ

/-- Loop body of `preprocessCanvas` (App.tsx lines 136-138): grayscale is
`(R + G + B) / 3` (the alpha channel is ignored), the emitted value is
`(255 - grayscale) / 255 * 2 - 1`. -/
def pixelValue (p : RGBA) : ℚ :=
  let grayscale : ℚ := ((p.r : ℚ) + (p.g : ℚ) + (p.b : ℚ)) / 3
  (255 - grayscale) / 255 * 2 - 1

/-- `preprocessCanvas` (App.tsx lines 117-142).  The source draws the user
canvas onto a fresh 28 by 28 canvas and reads back `getImageData(0, 0, 28, 28)`,
whose data array always holds exactly 28 * 28 = 784 RGBA pixels; the resampling
itself is the platform's black-box bitmap scaling, so the function takes the
resampled destination image as input.  The loop walks the pixel data in
row-major order and emits one normalized value per pixel. -/
def preprocessCanvas (resampled : Fin 784 → RGBA) : List ℚ :=
  (List.finRange 784).map (fun i => pixelValue (resampled i))

/-- `softmax` (App.tsx lines 229-234).  `Math.max(...arr)` over a nonempty
array is the list maximum, modelled by `foldl max` over the head and tail.
`exp.reduce((a, b) => a + b)` has no initial accumulator, so on an empty array
it throws a TypeError — modelled by returning `none`; on a nonempty array it
is the list sum. -/
noncomputable def softmax : List ℝ → Option (List ℝ)
  | [] => none
  | a :: rest =>
    let m := rest.foldl max a
    let exps := (a :: rest).map (fun x => Real.exp (x - m))
    some (exps.map (fun x => x / exps.sum))

/-- The `Prediction` interface (App.tsx lines 6-9). -/
structure Prediction where
  digit : ℕ
  probability : ℝ

/-- One step of a stable insertion sort modelling the JavaScript
`sort((a, b) => b.probability - a.probability)` (App.tsx line 169).
`Array.prototype.sort` is stable (ECMAScript 2019); the comparator puts `x`
before `y` exactly when `y.probability - x.probability <= 0`, and on ties the
element earlier in the input stays first.  `insertPred x l` inserts `x`
(which originates earlier in the input than everything in `l`) before the
first element whose probability does not exceed `x`'s. -/
noncomputable def insertPred (x : Prediction) : List Prediction → List Prediction
  | [] => [x]
  | y :: ys =>
    if y.probability ≤ x.probability then x :: y :: ys else y :: insertPred x ys

/-- Stable sort of the prediction list, descending by probability
(App.tsx line 169). -/
noncomputable def sortPreds : List Prediction → List Prediction
  | [] => []
  | x :: xs => insertPred x (sortPreds xs)

/-- `softmaxOutput.map((prob, index) => ({digit: index, probability: prob}))`
(App.tsx lines 166-169): pair each probability with its position. -/
def toPredictions (probs : List ℝ) : List Prediction :=
  probs.enum.map (fun p => { digit := p.1, probability := p.2 })

/-- The ranking computed by `predict` (App.tsx lines 162-169) from the raw
score vector returned by the inference call: softmax, pair with digit
indices, sort descending by probability.  `none` when `softmax` throws. -/
noncomputable def predictRanking (scores : List ℝ) : Option (List Prediction) :=
  (softmax scores).map (fun probs => sortPreds (toPredictions probs))

/-- Strict ranking order: `x` must precede `y` when `x` has strictly larger
probability, or equal probability and strictly smaller digit index. -/
def rankLT (x y : Prediction) : Prop :=
  y.probability < x.probability ∨
    (x.probability = y.probability ∧ x.digit < y.digit)

/-- The React component state touched by `predict`, `saveImage` and
`saveImageToGitHub` (App.tsx lines 14-19): the displayed predictions, the
user-visible save message, the upload counter and the two save guards. -/
structure AppState where
  predictions : List Prediction
  saveMessage : String
  uploadCount : ℕ
  canvasModified : Bool
  currentDrawingSaved : Bool

/-- Outcome of the external inference call inside `predict`: either a raw
score vector, or a rejection (model failure, malformed input, ...). -/
inductive InferOutcome where
  | ok (scores : List ℝ)
  | failed

/-- `predict` (App.tsx lines 144-175) as a state transition, parameterised by
the outcome of the external inference call.  On success it ranks the scores
and stores them via `setPredictions`; every thrown error (a rejected inference
call, or `softmax` throwing on an empty output vector) is caught by the
`try/catch`, whose handler only calls `console.error` — no state field is
written on the error path. -/
noncomputable def predictStep (outcome : InferOutcome) (s : AppState) : AppState :=
  match outcome with
  | .failed => s
  | .ok scores =>
    match predictRanking scores with
    | none => s
    | some ranking => { s with predictions := ranking }

/-- Outcome of the HTTP PUT performed by `saveImageToGitHub`. -/
inductive UploadOutcome where
  | success
  | failure

/-- `saveImageToGitHub` (App.tsx lines 177-202) as a state transition.  On a
successful PUT it increments the upload counter and sets the success message;
on failure its own `catch` sets the error message and returns normally — the
rejection is NOT re-thrown to the caller. -/
def saveImageToGitHub (outcome : UploadOutcome) (s : AppState) : AppState :=
  match outcome with
  | .success =>
    { s with
      uploadCount := s.uploadCount + 1,
      saveMessage := "Successfully uploaded image " ++ toString (s.uploadCount + 1) ++ "!" }
  | .failure => { s with saveMessage := "Error uploading image" }

/-- `saveImage` (App.tsx lines 204-226) as a state transition.  It refuses
when the canvas is unmodified or the drawing was already saved; otherwise it
awaits `saveImageToGitHub` — which never rejects, since it catches its own
error — and then unconditionally runs `setCurrentDrawingSaved(true)`. -/
def saveImage (outcome : UploadOutcome) (s : AppState) : AppState :=
  if s.canvasModified = false then
    { s with saveMessage := "Please draw a digit before saving" }
  else if s.currentDrawingSaved = true then
    { s with saveMessage := "This drawing has already been saved" }
  else
    { saveImageToGitHub outcome s with currentDrawingSaved := true }

namespace Variant0

/-- `preprocessCanvas` of the second source variant (src/unnamed/part_000
lines 71-96); the loop body is inlined as in that source. -/
def preprocessCanvas (resampled : Fin 784 → RGBA) : List ℚ :=
  (List.finRange 784).map (fun i =>
    let grayscale : ℚ :=
      (((resampled i).r : ℚ) + ((resampled i).g : ℚ) + ((resampled i).b : ℚ)) / 3
    (255 - grayscale) / 255 * 2 - 1)

/-- `softmax` of the second source variant (src/unnamed/part_000
lines 170-175). -/
noncomputable def softmax : List ℝ → Option (List ℝ)
  | [] => none
  | a :: rest =>
    let m := rest.foldl max a
    let exps := (a :: rest).map (fun x => Real.exp (x - m))
    some (exps.map (fun x => x / exps.sum))

end Variant0

/-- Claim C7: for every destination pixel the preprocessor computes grayscale
`g = (R + G + B) / 3` ignoring alpha and emits `(255 - g) / 255 * 2 - 1`;
consequently an all-white raster yields 784 values all equal to -1 and an
all-black raster yields 784 values all equal to 1. -/
theorem preprocess_formula_white_black (resampled : Fin 784 → RGBA) :
    (∀ i, pixelValue (resampled i) =
        (255 - (((resampled i).r : ℚ) + ((resampled i).g : ℚ) + ((resampled i).b : ℚ)) / 3)
          / 255 * 2 - 1) ∧
    ((∀ i, (resampled i).r = 255 ∧ (resampled i).g = 255 ∧ (resampled i).b = 255) →
        preprocessCanvas resampled = List.replicate 784 (-1)) ∧
    ((∀ i, (resampled i).r = 0 ∧ (resampled i).g = 0 ∧ (resampled i).b = 0) →
        preprocessCanvas resampled = List.replicate 784 1) := by
  refine ⟨fun i => rfl, fun h => ?_, fun h => ?_⟩
  · rw [List.eq_replicate_iff]
    refine ⟨by simp [preprocessCanvas], ?_⟩
    intro v hv
    simp only [preprocessCanvas, List.mem_map, List.mem_finRange, true_and] at hv
    obtain ⟨i, rfl⟩ := hv
    obtain ⟨hr, hg, hb⟩ := h i
    simp [pixelValue, hr, hg, hb]
    norm_num
  · rw [List.eq_replicate_iff]
    refine ⟨by simp [preprocessCanvas], ?_⟩
    intro v hv
    simp only [preprocessCanvas, List.mem_map, List.mem_finRange, true_and] at hv
    obtain ⟨i, rfl⟩ := hv
    obtain ⟨hr, hg, hb⟩ := h i
    simp [pixelValue, hr, hg, hb]
    norm_num

/-- Witness for claim C7 at the constant all-white and all-black rasters. -/
theorem preprocess_formula_white_black_witness :
    preprocessCanvas (fun _ => ⟨255, 255, 255, 255⟩) = List.replicate 784 (-1) ∧
    preprocessCanvas (fun _ => ⟨0, 0, 0, 255⟩) = List.replicate 784 1 :=
  ⟨(preprocess_formula_white_black (fun _ => ⟨255, 255, 255, 255⟩)).2.1
      (fun _ => ⟨rfl, rfl, rfl⟩),
   (preprocess_formula_white_black (fun _ => ⟨0, 0, 0, 255⟩)).2.2
      (fun _ => ⟨rfl, rfl, rfl⟩)⟩

/-- Claim C8: the preprocessor's output always has length exactly 784, and
for byte-valued channels every emitted value lies in the interval [-1, 1]. -/
theorem preprocess_length_and_range (resampled : Fin 784 → RGBA) :
    (preprocessCanvas resampled).length = 784 ∧
    ((∀ i, (resampled i).r ≤ 255 ∧ (resampled i).g ≤ 255 ∧ (resampled i).b ≤ 255) →
      ∀ v ∈ preprocessCanvas resampled, -1 ≤ v ∧ v ≤ 1) := by
  refine ⟨by simp [preprocessCanvas], ?_⟩
  intro h v hv
  simp only [preprocessCanvas, List.mem_map, List.mem_finRange, true_and] at hv
  obtain ⟨i, rfl⟩ := hv
  obtain ⟨hr, hg, hb⟩ := h i
  have hrq : ((resampled i).r : ℚ) ≤ 255 := by exact_mod_cast hr
  have hgq : ((resampled i).g : ℚ) ≤ 255 := by exact_mod_cast hg
  have hbq : ((resampled i).b : ℚ) ≤ 255 := by exact_mod_cast hb
  have hr0 : (0 : ℚ) ≤ ((resampled i).r : ℚ) := Nat.cast_nonneg _
  have hg0 : (0 : ℚ) ≤ ((resampled i).g : ℚ) := Nat.cast_nonneg _
  have hb0 : (0 : ℚ) ≤ ((resampled i).b : ℚ) := Nat.cast_nonneg _
  simp only [pixelValue]
  constructor <;> linarith

/-- Witness for claim C8 at the constant all-black transparent raster. -/
theorem preprocess_length_and_range_witness :
    (preprocessCanvas (fun _ => ⟨0, 0, 0, 0⟩)).length = 784 ∧
    ∀ v ∈ preprocessCanvas (fun _ => ⟨0, 0, 0, 0⟩), -1 ≤ v ∧ v ≤ 1 :=
  ⟨(preprocess_length_and_range (fun _ => ⟨0, 0, 0, 0⟩)).1,
   (preprocess_length_and_range (fun _ => ⟨0, 0, 0, 0⟩)).2
      (fun _ => ⟨by decide, by decide, by decide⟩)⟩

/-- Claim C10: the two source variants implement extensionally equal core
pipelines — `preprocessCanvas` and `softmax` agree on every input. -/
theorem variants_core_pipeline_equal :
    (∀ resampled : Fin 784 → RGBA,
        preprocessCanvas resampled = Variant0.preprocessCanvas resampled) ∧
    (∀ scores : List ℝ, softmax scores = Variant0.softmax scores) := by
  constructor
  · intro r
    rfl
  · intro scores
    cases scores <;> rfl

/-- Unfolding equation for `softmax` on a nonempty score vector. -/
theorem softmax_cons (a : ℝ) (rest : List ℝ) :
    softmax (a :: rest) =
      some (((a :: rest).map (fun x => Real.exp (x - rest.foldl max a))).map
        (fun x => x / ((a :: rest).map (fun x => Real.exp (x - rest.foldl max a))).sum)) :=
  rfl

/-- Dividing every element of a list by a constant divides the sum. -/
theorem list_sum_map_div (l : List ℝ) (s : ℝ) :
    (l.map (fun x => x / s)).sum = l.sum / s := by
  induction l with
  | nil => simp
  | cons x xs ih => simp [ih, add_div]

/-- A nonempty list of positive reals has positive sum. -/
theorem list_sum_pos {l : List ℝ} (hne : l ≠ []) (hpos : ∀ x ∈ l, 0 < x) :
    0 < l.sum := by
  cases l with
  | nil => exact absurd rfl hne
  | cons x xs =>
    have hx : 0 < x := hpos x (by simp)
    have hxs : 0 ≤ xs.sum := List.sum_nonneg (fun y hy => (hpos y (by simp [hy])).le)
    simpa using add_pos_of_pos_of_nonneg hx hxs

/-- Normalizing a nonempty list of positive reals by its sum yields values in
[0, 1] summing to exactly 1. -/
theorem softmax_normalized_core (exps : List ℝ) (hne : exps ≠ [])
    (hpos : ∀ e ∈ exps, 0 < e) :
    (∀ p ∈ exps.map (fun x => x / exps.sum), 0 ≤ p ∧ p ≤ 1) ∧
    (exps.map (fun x => x / exps.sum)).sum = 1 := by
  have hsum : 0 < exps.sum := list_sum_pos hne hpos
  constructor
  · intro p hp
    rw [List.mem_map] at hp
    obtain ⟨e, he, rfl⟩ := hp
    exact ⟨div_nonneg (hpos e he).le hsum.le,
      div_le_one_of_le₀ (List.single_le_sum (fun x hx => (hpos x hx).le) e he) hsum.le⟩
  · rw [list_sum_map_div]
    exact div_self hsum.ne'

/-- Claim C1: for every finite length-10 score vector, softmax returns a
probability vector whose elements lie in [0, 1] and sum to 1 (hence within
the tolerance of one millionth). -/
theorem softmax_probabilities (scores : List ℝ) (h : scores.length = 10) :
    ∃ probs, softmax scores = some probs ∧
      (∀ p ∈ probs, 0 ≤ p ∧ p ≤ 1) ∧
      probs.sum = 1 ∧ |probs.sum - 1| ≤ 1 / 1000000 := by
  cases scores with
  | nil => simp at h
  | cons a rest =>
    have hpos : ∀ e ∈ (a :: rest).map (fun x => Real.exp (x - rest.foldl max a)), 0 < e := by
      intro e he
      rw [List.mem_map] at he
      obtain ⟨x, _, rfl⟩ := he
      exact Real.exp_pos _
    have hne : (a :: rest).map (fun x => Real.exp (x - rest.foldl max a)) ≠ [] := by simp
    obtain ⟨h1, h2⟩ := softmax_normalized_core _ hne hpos
    exact ⟨_, softmax_cons a rest, h1, h2, by rw [h2]; norm_num⟩

/-- Witness for claim C1 at the all-zero length-10 score vector. -/
theorem softmax_probabilities_witness :
    (List.replicate 10 (0 : ℝ)).length = 10 ∧
      ∃ probs, softmax (List.replicate 10 (0 : ℝ)) = some probs ∧
        (∀ p ∈ probs, 0 ≤ p ∧ p ≤ 1) ∧
        probs.sum = 1 ∧ |probs.sum - 1| ≤ 1 / 1000000 :=
  ⟨by simp, softmax_probabilities (List.replicate 10 (0 : ℝ)) (by simp)⟩

/-- Shifting every element and the seed by a constant shifts a max-fold. -/
theorem foldl_max_map_add (c : ℝ) :
    ∀ (rest : List ℝ) (a : ℝ),
      (rest.map (fun x => x + c)).foldl max (a + c) = rest.foldl max a + c := by
  intro rest
  induction rest with
  | nil => intro a; rfl
  | cons x xs ih =>
    intro a
    simp only [List.map_cons, List.foldl_cons]
    rw [max_add_add_right]
    exact ih (max a x)

/-- Softmax is invariant under adding a constant to every score. -/
theorem softmax_shift (a c : ℝ) (rest : List ℝ) :
    softmax ((a :: rest).map (fun x => x + c)) = softmax (a :: rest) := by
  rw [List.map_cons, softmax_cons, softmax_cons]
  have hmax : (rest.map (fun x => x + c)).foldl max (a + c) = rest.foldl max a + c :=
    foldl_max_map_add c rest a
  have hexp : ((a + c) :: rest.map (fun x => x + c)).map
      (fun x => Real.exp (x - (rest.map (fun x => x + c)).foldl max (a + c))) =
      (a :: rest).map (fun x => Real.exp (x - rest.foldl max a)) := by
    rw [hmax, ← List.map_cons (fun x => x + c) a rest, List.map_map]
    refine List.map_congr_left ?_
    intro x _
    simp only [Function.comp_apply]
    congr 1
    ring
  rw [hexp]

/-- Folding max over a constant list returns that constant. -/
theorem foldl_max_replicate (v : ℝ) :
    ∀ n : ℕ, (List.replicate n v).foldl max v = v := by
  intro n
  induction n with
  | zero => rfl
  | succ k ih =>
    simp only [List.replicate_succ, List.foldl_cons, max_self]
    exact ih

/-- An all-equal score vector yields the uniform distribution. -/
theorem softmax_replicate_uniform (v : ℝ) :
    softmax (List.replicate 10 v) = some (List.replicate 10 (1 / 10)) := by
  have h10 : List.replicate 10 v = v :: List.replicate 9 v := rfl
  rw [h10, softmax_cons, foldl_max_replicate v 9]
  have hexp : (v :: List.replicate 9 v).map (fun x => Real.exp (x - v)) =
      List.replicate 10 (1 : ℝ) := by
    rw [← h10, List.map_replicate, sub_self, Real.exp_zero]
  rw [hexp]
  have hsum : (List.replicate 10 (1 : ℝ)).sum = 10 := by
    simp [List.sum_replicate]
    norm_num
  rw [hsum, List.map_replicate]

/-- Claim C3: adding the same constant to every element of a length-10 score
vector leaves both the softmax output and the Ranking unchanged, and an
all-equal score vector yields the uniform distribution (probability 1/10 for
every digit). -/
theorem softmax_shift_invariant (scores : List ℝ) (c : ℝ) (h : scores.length = 10) :
    softmax (scores.map (fun x => x + c)) = softmax scores ∧
    predictRanking (scores.map (fun x => x + c)) = predictRanking scores ∧
    ∀ v : ℝ, softmax (List.replicate 10 v) = some (List.replicate 10 (1 / 10)) := by
  cases scores with
  | nil => simp at h
  | cons a rest =>
    have hs := softmax_shift a c rest
    exact ⟨hs, by simp only [predictRanking, hs], fun v => softmax_replicate_uniform v⟩

/-- Witness for claim C3 at the all-zero length-10 score vector with shift 1. -/
theorem softmax_shift_invariant_witness :
    (List.replicate 10 (0 : ℝ)).length = 10 ∧
      (softmax ((List.replicate 10 (0 : ℝ)).map (fun x => x + 1)) =
          softmax (List.replicate 10 (0 : ℝ)) ∧
        predictRanking ((List.replicate 10 (0 : ℝ)).map (fun x => x + 1)) =
          predictRanking (List.replicate 10 (0 : ℝ)) ∧
        ∀ v : ℝ, softmax (List.replicate 10 v) = some (List.replicate 10 (1 / 10))) :=
  ⟨by simp, softmax_shift_invariant (List.replicate 10 (0 : ℝ)) 1 (by simp)⟩

/-- Counterexample to claim C4 as stated: a score vector of length 5 is not
rejected — the Ranker silently produces a Ranking from it. -/
theorem softmax_wrong_length_counterexample :
    [(0 : ℝ), 0, 0, 0, 0].length ≠ 10 ∧
      (predictRanking [(0 : ℝ), 0, 0, 0, 0]).isSome = true := by
  exact ⟨by simp, rfl⟩

/-- Claim C4 amended: only the empty ScoreVector makes the pipeline fail (the
sum reduction of `softmax` throws on an empty array, and the error is caught
and merely logged); every nonempty ScoreVector, whatever its length, is
silently tolerated and yields a Ranking. -/
theorem softmax_empty_none_nonempty_some :
    softmax ([] : List ℝ) = none ∧
      ∀ (a : ℝ) (rest : List ℝ), (predictRanking (a :: rest)).isSome = true :=
  ⟨rfl, fun _ _ => rfl⟩

/-- Claim C5 evaluated at the failing input: starting from a modified, unsaved
drawing, a failed upload sets the error message yet still marks the drawing as
saved; the next save attempt is rejected by the save-once guard with the
already-saved message and does not retry the upload (uploadCount stays 0). -/
theorem saveImage_failed_upload_blocks_retry :
    (saveImage UploadOutcome.failure ⟨[], "", 0, true, false⟩).currentDrawingSaved = true ∧
    (saveImage UploadOutcome.failure ⟨[], "", 0, true, false⟩).saveMessage =
      "Error uploading image" ∧
    (saveImage UploadOutcome.success
        (saveImage UploadOutcome.failure ⟨[], "", 0, true, false⟩)).saveMessage =
      "This drawing has already been saved" ∧
    (saveImage UploadOutcome.success
        (saveImage UploadOutcome.failure ⟨[], "", 0, true, false⟩)).uploadCount = 0 :=
  ⟨rfl, rfl, rfl, rfl⟩

/-- Counterexample to claim C6 as stated: after a failed inference call no
user-visible message is surfaced — the message field stays empty (the catch
handler only logs to the console). -/
theorem predict_error_no_visible_message :
    (predictStep InferOutcome.failed ⟨[], "", 0, true, false⟩).saveMessage = "" ∧
    (predictStep InferOutcome.failed ⟨[], "", 0, true, false⟩).predictions = [] :=
  ⟨rfl, rfl⟩

/-- Claim C6 amended: on a failed inference call the component state is
entirely unchanged — the displayed Ranking does not update and no
user-visible message is set; the error is only logged to the console. -/
theorem predict_error_state_unchanged (s : AppState) :
    predictStep InferOutcome.failed s = s := rfl

/-- Membership after an insertion step. -/
theorem mem_insertPred {x z : Prediction} :
    ∀ {l : List Prediction}, z ∈ insertPred x l ↔ z = x ∨ z ∈ l := by
  intro l
  induction l with
  | nil => simp [insertPred]
  | cons y ys ih =>
    simp only [insertPred]
    split
    · simp [List.mem_cons]
    · simp only [List.mem_cons, ih]
      tauto

/-- Inserting an element permutes with consing it. -/
theorem insertPred_perm (x : Prediction) :
    ∀ l : List Prediction, (insertPred x l).Perm (x :: l) := by
  intro l
  induction l with
  | nil => exact List.Perm.refl _
  | cons y ys ih =>
    simp only [insertPred]
    split
    · exact List.Perm.refl _
    · exact (ih.cons y).trans (List.Perm.swap x y ys)

/-- The stable insertion sort permutes its input. -/
theorem sortPreds_perm : ∀ l : List Prediction, (sortPreds l).Perm l := by
  intro l
  induction l with
  | nil => exact List.Perm.refl _
  | cons x xs ih => exact (insertPred_perm x (sortPreds xs)).trans (ih.cons x)

/-- Inserting into a strictly ranked list keeps it strictly ranked, provided
the new element precedes every equal-probability element in digit order. -/
theorem pairwise_insertPred {x : Prediction} :
    ∀ {l : List Prediction}, l.Pairwise rankLT →
      (∀ y ∈ l, x.probability = y.probability → x.digit < y.digit) →
      (insertPred x l).Pairwise rankLT := by
  intro l
  induction l with
  | nil =>
    intro _ _
    simp [insertPred]
  | cons y ys ih =>
    intro hl hx
    rw [List.pairwise_cons] at hl
    obtain ⟨hy, hys⟩ := hl
    simp only [insertPred]
    split
    case isTrue hle =>
      rw [List.pairwise_cons]
      refine ⟨?_, List.Pairwise.cons hy hys⟩
      intro z hz
      rcases List.mem_cons.1 hz with rfl | hz₂
      · rcases lt_or_eq_of_le hle with hlt | heq
        · exact Or.inl hlt
        · exact Or.inr ⟨heq.symm, hx z (List.mem_cons_self z ys) heq.symm⟩
      · rcases hy z hz₂ with hlt | ⟨heq, _⟩
        · exact Or.inl (lt_of_lt_of_le hlt hle)
        · have hzx : z.probability ≤ x.probability := heq ▸ hle
          rcases lt_or_eq_of_le hzx with hlt₂ | heq₂
          · exact Or.inl hlt₂
          · exact Or.inr ⟨heq₂.symm, hx z (List.mem_cons_of_mem y hz₂) heq₂.symm⟩
    case isFalse hnle =>
      have hlt : x.probability < y.probability := not_le.1 hnle
      rw [List.pairwise_cons]
      constructor
      · intro z hz
        rcases mem_insertPred.1 hz with rfl | hz₂
        · exact Or.inl hlt
        · exact hy z hz₂
      · exact ih hys (fun z hz hpe => hx z (List.mem_cons_of_mem y hz) hpe)

/-- Sorting a list whose equal-probability entries are already in ascending
digit order yields a list strictly ordered by `rankLT`. -/
theorem pairwise_sortPreds :
    ∀ {l : List Prediction},
      l.Pairwise (fun a b => a.probability = b.probability → a.digit < b.digit) →
      (sortPreds l).Pairwise rankLT := by
  intro l
  induction l with
  | nil =>
    intro _
    simp [sortPreds]
  | cons x xs ih =>
    intro h
    rw [List.pairwise_cons] at h
    obtain ⟨hx, hxs⟩ := h
    exact pairwise_insertPred (ih hxs)
      (fun y hy => hx y ((sortPreds_perm xs).mem_iff.1 hy))

/-- Indices in an enumeration are strictly increasing. -/
theorem pairwise_fst_lt_enumFrom (l : List ℝ) :
    ∀ n : ℕ, (List.enumFrom n l).Pairwise (fun a b => a.1 < b.1) := by
  induction l with
  | nil =>
    intro n
    simp
  | cons x xs ih =>
    intro n
    rw [List.enumFrom_cons, List.pairwise_cons]
    refine ⟨?_, ih (n + 1)⟩
    intro p hp
    obtain ⟨i, y⟩ := p
    exact lt_of_lt_of_le (Nat.lt_succ_self n) (List.mem_enumFrom hp).1

/-- Digits of the paired prediction list are strictly increasing. -/
theorem pairwise_digit_toPredictions (probs : List ℝ) :
    (toPredictions probs).Pairwise (fun a b => a.digit < b.digit) := by
  have h : probs.enum.Pairwise (fun a b => a.1 < b.1) :=
    pairwise_fst_lt_enumFrom probs 0
  simp only [toPredictions]
  exact h.map _ (fun a b hab => hab)

/-- Softmax preserves the length of the score vector. -/
theorem softmax_length {scores probs : List ℝ} (h : softmax scores = some probs) :
    probs.length = scores.length := by
  cases scores with
  | nil => simp [softmax] at h
  | cons a rest =>
    rw [softmax_cons] at h
    obtain rfl := Option.some.inj h
    simp

/-- Claim C2: for every length-10 score vector, `predict` pairs each
probability with its digit index (the Ranking is a permutation of the
index-paired softmax output) and the Ranking is sorted descending by
probability with ties broken by ascending digit index. -/
theorem predict_ranking_sorted (scores : List ℝ) (h : scores.length = 10) :
    ∃ probs ranking,
      softmax scores = some probs ∧
      predictRanking scores = some ranking ∧
      ranking.Perm (toPredictions probs) ∧
      ranking.Pairwise rankLT := by
  cases scores with
  | nil => simp at h
  | cons a rest =>
    obtain ⟨probs, hs⟩ : ∃ probs, softmax (a :: rest) = some probs :=
      ⟨_, softmax_cons a rest⟩
    refine ⟨probs, sortPreds (toPredictions probs), hs, ?_, sortPreds_perm _, ?_⟩
    · simp [predictRanking, hs]
    · have hp := pairwise_digit_toPredictions probs
      refine pairwise_sortPreds (List.Pairwise.imp ?_ hp)
      intro p q hab _
      exact hab

/-- Witness for claim C2 at the all-zero length-10 score vector. -/
theorem predict_ranking_sorted_witness :
    (List.replicate 10 (0 : ℝ)).length = 10 ∧
      ∃ probs ranking,
        softmax (List.replicate 10 (0 : ℝ)) = some probs ∧
        predictRanking (List.replicate 10 (0 : ℝ)) = some ranking ∧
        ranking.Perm (toPredictions probs) ∧
        ranking.Pairwise rankLT :=
  ⟨by simp, predict_ranking_sorted (List.replicate 10 (0 : ℝ)) (by simp)⟩

/-- Claim C9: for every length-10 score vector, the Ranking has exactly 10
entries whose digit fields are a permutation of 0 through 9. -/
theorem predict_ranking_digits_perm (scores : List ℝ) (h : scores.length = 10) :
    ∃ ranking, predictRanking scores = some ranking ∧
      ranking.length = 10 ∧
      (ranking.map Prediction.digit).Perm (List.range 10) := by
  cases scores with
  | nil => simp at h
  | cons a rest =>
    obtain ⟨probs, hs⟩ : ∃ probs, softmax (a :: rest) = some probs :=
      ⟨_, softmax_cons a rest⟩
    have hlen : probs.length = 10 := (softmax_length hs).trans h
    refine ⟨sortPreds (toPredictions probs), ?_, ?_, ?_⟩
    · simp [predictRanking, hs]
    · rw [(sortPreds_perm _).length_eq]
      simp only [toPredictions, List.length_map, List.enum_length]
      exact hlen
    · refine ((sortPreds_perm _).map Prediction.digit).trans ?_
      have hd : (toPredictions probs).map Prediction.digit = List.range 10 := by
        simp only [toPredictions, List.map_map]
        exact hlen ▸ List.enum_map_fst probs
      rw [hd]

/-- Witness for claim C9 at the all-zero length-10 score vector. -/
theorem predict_ranking_digits_perm_witness :
    (List.replicate 10 (0 : ℝ)).length = 10 ∧
      ∃ ranking, predictRanking (List.replicate 10 (0 : ℝ)) = some ranking ∧
        ranking.length = 10 ∧
        (ranking.map Prediction.digit).Perm (List.range 10) :=
  ⟨by simp, predict_ranking_digits_perm (List.replicate 10 (0 : ℝ)) (by simp)⟩
